import Mathlib

/-!
Shallow embedding of the `permutation_compression` Rust crate
(src/utils.rs, src/binomial_cache.rs, src/streaming.rs) together with
proofs of the specified properties.

Conventions of the embedding:
* `BigUint` values are embedded as `Nat` (exact unbounded arithmetic,
  as in the source).
* `u64`/`usize` values are embedded as `Nat`; at the one arithmetic
  operation where a `u64` addition can exceed the machine width
  (`remaining_ones + remaining_zeros` in the streaming code) the
  wrap-around is made explicit with `% U64`.  Subtractions in the
  source only ever act on values the surrounding branch has checked to
  be positive, so Nat truncated subtraction coincides with them.
* bit containers (`BitVec` of the `bitvec` crate) are embedded as
  `List Bool` in iteration order.
-/

namespace PermutationCompression

/-- Machine width of `u64` (the streaming code runs on a 64-bit target). -/
def U64 : Nat := 2 ^ 64

/-- Embedding of `binomial_coefficient` from src/utils.rs.  The source
returns 0 when `b > a`, 1 when `b = 0` or `b = a`, and otherwise reduces
`b` to `min b (a - b)` and runs the multiplicative loop
`result *= a - i; result /= i + 1` for `i` in `0..b`, with exact
(always-dividing) integer division, embedded here as Nat division. -/
def binomial_coefficient (a b : Nat) : Nat :=
  if b > a then 0
  else if b = 0 ∨ b = a then 1
  else
    let m := min b (a - b)
    (List.range m).foldl (fun result i => result * (a - i) / (i + 1)) 1

/-- State-passing form of the loop body of `get_permutation_index`
(src/utils.rs lines 25-43): the state is
`(index, ones_remaining, zeros_remaining)`; the loop breaks as soon as
either remaining count is zero. -/
def gpiLoop : List Bool → Nat → Nat → Nat → Nat × Nat × Nat
  | [], index, ones_remaining, zeros_remaining =>
    (index, ones_remaining, zeros_remaining)
  | bit :: rest, index, ones_remaining, zeros_remaining =>
    if ones_remaining = 0 ∨ zeros_remaining = 0 then
      (index, ones_remaining, zeros_remaining)
    else if bit then
      gpiLoop rest
        (index + binomial_coefficient (ones_remaining + zeros_remaining - 1) ones_remaining)
        (ones_remaining - 1) zeros_remaining
    else
      gpiLoop rest index ones_remaining (zeros_remaining - 1)

/-- Embedding of `get_permutation_index` from src/utils.rs. -/
def get_permutation_index (bits : List Bool) (ones zeros : Nat) : Nat :=
  (gpiLoop bits 0 ones zeros).1

/-- Loop of `get_nth_permutation` (src/utils.rs lines 45-76).  The Rust
loop runs `while i < total` with `i` incremented once per emitted bit
and with two early-exit branches that emit the whole forced tail; the
first argument here is the remaining iteration budget `total - i`, so
the loop is entered with budget `ones + zeros`. -/
def gnpLoop : Nat → Nat → Nat → Nat → List Bool
  | 0, _, _, _ => []
  | fuel + 1, index, ones_remaining, zeros_remaining =>
    if ones_remaining = 0 then List.replicate zeros_remaining false
    else if zeros_remaining = 0 then List.replicate ones_remaining true
    else
      let c := binomial_coefficient (ones_remaining + zeros_remaining - 1) ones_remaining
      if c > index then false :: gnpLoop fuel index ones_remaining (zeros_remaining - 1)
      else true :: gnpLoop fuel (index - c) (ones_remaining - 1) zeros_remaining

/-- Embedding of `get_nth_permutation` from src/utils.rs (the
`with_capacity` size hint of the source has no observable effect on the
produced sequence and is not modelled). -/
def get_nth_permutation (index ones zeros : Nat) : List Bool :=
  gnpLoop (ones + zeros) index ones zeros

/-- Embedding of `compute_binomial` from src/binomial_cache.rs:
after the trivial cases it reduces `k` to `min k (n - k)` and runs
`result = result * (n - k + i) / i` for `i` in `1..=k` with exact
integer division. -/
def compute_binomial (n k : Nat) : Nat :=
  if k = 0 ∨ k = n then 1
  else
    let m := min k (n - k)
    (List.range m).foldl (fun result i => result * (n - m + (i + 1)) / (i + 1)) 1

/-- `BinomialCache::PRECOMPUTE_LIMIT` from src/binomial_cache.rs. -/
def PRECOMPUTE_LIMIT : Nat := 256

/-- Contents of the LRU cache of `BinomialCache`, as a partial map from
keys `(n, k)` to stored values. -/
def CacheState : Type := Nat × Nat → Option Nat

/-- A cache state is well formed when every stored value is the value
`compute_binomial` would produce for its key.  This holds for the empty
cache and is preserved by every `put` the source performs (it only ever
inserts `compute_binomial n k` under key `(n, k)`). -/
def cacheOK (cache : CacheState) : Prop :=
  ∀ n k v, cache (n, k) = some v → v = compute_binomial n k

/-- Embedding of `BinomialCache::get` from src/binomial_cache.rs,
parameterised by the current contents of the LRU cache.  `new` fills
`precomputed[n][k]` with `compute_binomial n k` for every `k ≤ n` below
`PRECOMPUTE_LIMIT`, so the table-lookup branch is embedded as that
value; on a cache miss the source computes `compute_binomial n k`,
stores it, and returns it (the insertion mutates only the cache, whose
contents are this function's explicit parameter). -/
def BinomialCache.get (cache : CacheState) (n k : Nat) : Nat :=
  let k := min k (n - k)
  if n < PRECOMPUTE_LIMIT ∧ k < PRECOMPUTE_LIMIT then compute_binomial n k
  else
    match cache (n, k) with
    | some v => v
    | none => compute_binomial n k

/-- Value returned by `BINOM_CACHE.get(n, k)` in the streaming code.
`BINOM_CACHE` is the lazily-initialised global `BinomialCache`; by
`BinomialCache_get_eq_choose` below, the value returned by `get` is the
same for every well-formed cache state, so calls through the global are
embedded by their value at the empty cache state. -/
def BINOM_CACHE_get (n k : Nat) : Nat :=
  BinomialCache.get (fun _ => none) n k

/-- Embedding of the `BitRanker` struct from src/streaming.rs. -/
structure BitRanker where
  total_ones : Nat
  total_zeros : Nat
  remaining_ones : Nat
  remaining_zeros : Nat
  current_index : Nat
deriving DecidableEq

/-- Embedding of `BitRanker::new`. -/
def BitRanker.new (total_ones total_zeros : Nat) : BitRanker :=
  { total_ones := total_ones
    total_zeros := total_zeros
    remaining_ones := total_ones
    remaining_zeros := total_zeros
    current_index := 0 }

/-- Embedding of `BitRanker::process_chunk`: one pass over the chunk,
breaking as soon as either remaining count is zero.  The source computes
`n = remaining_ones + remaining_zeros - 1` in `u64`; the addition is the
only operation that can exceed the machine width, hence the `% U64`. -/
def BitRanker.process_chunk : BitRanker → List Bool → BitRanker
  | r, [] => r
  | r, bit :: rest =>
    if r.remaining_ones = 0 ∨ r.remaining_zeros = 0 then r
    else if bit then
      BitRanker.process_chunk
        { r with
          current_index := r.current_index +
            BINOM_CACHE_get ((r.remaining_ones + r.remaining_zeros) % U64 - 1) r.remaining_ones
          remaining_ones := r.remaining_ones - 1 }
        rest
    else
      BitRanker.process_chunk { r with remaining_zeros := r.remaining_zeros - 1 } rest

/-- Embedding of `BitRanker::finalize`. -/
def BitRanker.finalize (r : BitRanker) : Nat :=
  r.current_index

/-- Embedding of the `BitUnranker` struct from src/streaming.rs. -/
structure BitUnranker where
  remaining_index : Nat
  remaining_ones : Nat
  remaining_zeros : Nat
deriving DecidableEq

/-- Embedding of `BitUnranker::new`. -/
def BitUnranker.new (index total_ones total_zeros : Nat) : BitUnranker :=
  { remaining_index := index
    remaining_ones := total_ones
    remaining_zeros := total_zeros }

/-- Body of the `for i in 0..chunk_size` loop of
`BitUnranker::next_chunk`, producing the emitted bits in order together
with the final state.  The `remaining_zeros.saturating_sub(1)` of the
source is Nat truncated subtraction. -/
def BitUnranker.nextChunkLoop : BitUnranker → Nat → List Bool × BitUnranker
  | u, 0 => ([], u)
  | u, count + 1 =>
    if u.remaining_ones = 0 then
      let step := BitUnranker.nextChunkLoop
        { u with remaining_zeros := u.remaining_zeros - 1 } count
      (false :: step.1, step.2)
    else if u.remaining_zeros = 0 then
      let step := BitUnranker.nextChunkLoop
        { u with remaining_ones := u.remaining_ones - 1 } count
      (true :: step.1, step.2)
    else
      let c := BINOM_CACHE_get ((u.remaining_ones + u.remaining_zeros) % U64 - 1) u.remaining_ones
      if c > u.remaining_index then
        let step := BitUnranker.nextChunkLoop
          { u with remaining_zeros := u.remaining_zeros - 1 } count
        (false :: step.1, step.2)
      else
        let step := BitUnranker.nextChunkLoop
          { u with
            remaining_index := u.remaining_index - c
            remaining_ones := u.remaining_ones - 1 } count
        (true :: step.1, step.2)

/-- Embedding of `BitUnranker::next_chunk`: the number of bits emitted
is `min(chunk_size, remaining_ones + remaining_zeros)` (the `u64`
addition again made explicit with `% U64`), and the mutated receiver is
returned alongside the produced bits. -/
def BitUnranker.next_chunk (u : BitUnranker) (chunk_size : Nat) : List Bool × BitUnranker :=
  BitUnranker.nextChunkLoop u (min chunk_size ((u.remaining_ones + u.remaining_zeros) % U64))

/-- Driver that performs one `next_chunk` call per requested `max_len`
in the given list and concatenates the produced chunks, returning the
final decoder state as well (this is the call pattern of
`stream_unrank` in src/lib.rs generalised to arbitrary chunk sizes). -/
def streamDecode : BitUnranker → List Nat → List Bool × BitUnranker
  | u, [] => ([], u)
  | u, m :: rest =>
    let step := u.next_chunk m
    let more := streamDecode step.2 rest
    (step.1 ++ more.1, more.2)

/-- Bit sequence that the unranking loop produces from a decoder state
when run to exhaustion (the whole remaining suffix). -/
def unrankRemaining (u : BitUnranker) : List Bool :=
  gnpLoop (u.remaining_ones + u.remaining_zeros) u.remaining_index
    u.remaining_ones u.remaining_zeros

/-! Correctness of the two multiplicative binomial loops. -/

theorem binomial_loop_eq_choose (a : Nat) :
    ∀ j, (List.range j).foldl (fun result i => result * (a - i) / (i + 1)) 1 = Nat.choose a j := by
  intro j
  induction j with
  | zero => simp
  | succ j ih =>
    rw [List.range_succ, List.foldl_append, ih]
    simp only [List.foldl_cons, List.foldl_nil]
    rw [← Nat.choose_succ_right_eq]
    exact Nat.mul_div_cancel _ (Nat.succ_pos j)

theorem binomial_coefficient_eq_choose (a b : Nat) :
    binomial_coefficient a b = Nat.choose a b := by
  unfold binomial_coefficient
  by_cases hgt : b > a
  · simp [hgt, Nat.choose_eq_zero_of_lt hgt]
  · have hba : b ≤ a := Nat.le_of_not_lt hgt
    by_cases htriv : b = 0 ∨ b = a
    · rcases htriv with h0 | ha
      · subst h0; simp [hgt]
      · subst ha; simp [hgt]
    · simp only [if_neg hgt, if_neg htriv]
      rw [binomial_loop_eq_choose]
      rcases Nat.le_total b (a - b) with h | h
      · rw [Nat.min_eq_left h]
      · rw [Nat.min_eq_right h, Nat.choose_symm hba]

theorem compute_loop_eq_choose (n m : Nat) :
    ∀ j, (List.range j).foldl (fun result i => result * (n - m + (i + 1)) / (i + 1)) 1
      = Nat.choose (n - m + j) j := by
  intro j
  induction j with
  | zero => simp
  | succ j ih =>
    rw [List.range_succ, List.foldl_append, ih]
    simp only [List.foldl_cons, List.foldl_nil]
    have harg : n - m + (j + 1) = (n - m + j) + 1 := by omega
    rw [harg]
    have hkey : Nat.choose (n - m + j) j * ((n - m + j) + 1)
        = Nat.choose ((n - m + j) + 1) (j + 1) * (j + 1) := by
      rw [Nat.mul_comm, Nat.succ_mul_choose_eq]
    rw [hkey]
    exact Nat.mul_div_cancel _ (Nat.succ_pos j)

theorem compute_binomial_eq_choose (n k : Nat) (hk : k ≤ n) :
    compute_binomial n k = Nat.choose n k := by
  unfold compute_binomial
  by_cases htriv : k = 0 ∨ k = n
  · rcases htriv with h0 | hn
    · subst h0; simp
    · subst hn; simp
  · simp only [if_neg htriv]
    rw [compute_loop_eq_choose]
    have hm : min k (n - k) ≤ n := le_trans (Nat.min_le_right _ _) (Nat.sub_le _ _)
    rw [Nat.sub_add_cancel hm]
    rcases Nat.le_total k (n - k) with h | h
    · rw [Nat.min_eq_left h]
    · rw [Nat.min_eq_right h, Nat.choose_symm hk]

theorem choose_min_symm (n k : Nat) (hk : k ≤ n) :
    Nat.choose n (min k (n - k)) = Nat.choose n k := by
  rcases Nat.le_total k (n - k) with h | h
  · rw [Nat.min_eq_left h]
  · rw [Nat.min_eq_right h, Nat.choose_symm hk]

theorem BinomialCache_get_eq_choose (cache : CacheState) (hc : cacheOK cache)
    (n k : Nat) (hk : k ≤ n) : BinomialCache.get cache n k = Nat.choose n k := by
  unfold BinomialCache.get
  have hmin : min k (n - k) ≤ n := le_trans (Nat.min_le_right _ _) (Nat.sub_le _ _)
  have hval : compute_binomial n (min k (n - k)) = Nat.choose n k := by
    rw [compute_binomial_eq_choose n _ hmin, choose_min_symm n k hk]
  by_cases hpre : n < PRECOMPUTE_LIMIT ∧ min k (n - k) < PRECOMPUTE_LIMIT
  · simp only [if_pos hpre]
    exact hval
  · simp only [if_neg hpre]
    cases hcc : cache (n, min k (n - k)) with
    | none => exact hval
    | some v => rw [hc n _ v hcc]; exact hval

theorem BINOM_CACHE_get_eq_choose (n k : Nat) (hk : k ≤ n) :
    BINOM_CACHE_get n k = Nat.choose n k := by
  unfold BINOM_CACHE_get
  exact BinomialCache_get_eq_choose _ (fun n k v h => by simp at h) n k hk

/-! Structural lemmas about the batch ranking loop. -/

theorem gpiLoop_stopped (bits : List Bool) (index ones_rem zeros_rem : Nat)
    (h : ones_rem = 0 ∨ zeros_rem = 0) :
    gpiLoop bits index ones_rem zeros_rem = (index, ones_rem, zeros_rem) := by
  cases bits with
  | nil => rfl
  | cons bit rest => simp [gpiLoop, h]

theorem gpiLoop_append (p q : List Bool) :
    ∀ index ones_rem zeros_rem,
      gpiLoop (p ++ q) index ones_rem zeros_rem
        = gpiLoop q (gpiLoop p index ones_rem zeros_rem).1
            (gpiLoop p index ones_rem zeros_rem).2.1
            (gpiLoop p index ones_rem zeros_rem).2.2 := by
  induction p with
  | nil => intro index t z; simp [gpiLoop]
  | cons bit rest ih =>
    intro index t z
    by_cases h : t = 0 ∨ z = 0
    · rw [List.cons_append]
      rw [gpiLoop_stopped (bit :: (rest ++ q)) index t z h,
        gpiLoop_stopped (bit :: rest) index t z h]
      exact (gpiLoop_stopped q index t z h).symm
    · rw [List.cons_append]
      by_cases hbit : bit
      · subst hbit
        simp only [gpiLoop, if_neg h, if_pos trivial]
        exact ih _ _ _
      · simp only [Bool.not_eq_true] at hbit
        subst hbit
        simp only [gpiLoop, if_neg h, Bool.false_eq_true, if_neg (fun hf => hf)]
        exact ih _ _ _

theorem gpiLoop_index_add (bits : List Bool) :
    ∀ index ones_rem zeros_rem,
      gpiLoop bits index ones_rem zeros_rem
        = ((gpiLoop bits 0 ones_rem zeros_rem).1 + index,
           (gpiLoop bits 0 ones_rem zeros_rem).2.1,
           (gpiLoop bits 0 ones_rem zeros_rem).2.2) := by
  induction bits with
  | nil => intro index t z; simp [gpiLoop]
  | cons bit rest ih =>
    intro index t z
    by_cases h : t = 0 ∨ z = 0
    · rw [gpiLoop_stopped _ index t z h, gpiLoop_stopped _ 0 t z h]
      dsimp only
      rw [Nat.zero_add]
    · by_cases hbit : bit
      · subst hbit
        simp only [gpiLoop, if_neg h, if_pos trivial]
        rw [ih (index + binomial_coefficient (t + z - 1) t) (t - 1) z,
          ih (0 + binomial_coefficient (t + z - 1) t) (t - 1) z]
        dsimp only
        simp only [Prod.mk.injEq]
        refine ⟨by omega, by simp⟩
      · simp only [Bool.not_eq_true] at hbit
        subst hbit
        simp only [gpiLoop, if_neg h, Bool.false_eq_true, if_neg (fun hf => hf)]
        exact ih _ _ _

theorem gpiLoop_lt_choose (bits : List Bool) :
    ∀ ones_rem zeros_rem,
      (gpiLoop bits 0 ones_rem zeros_rem).1 < Nat.choose (ones_rem + zeros_rem) ones_rem := by
  induction bits with
  | nil =>
    intro t z
    simp only [gpiLoop]
    exact Nat.choose_pos (Nat.le_add_right t z)
  | cons bit rest ih =>
    intro t z
    by_cases h : t = 0 ∨ z = 0
    · rw [gpiLoop_stopped _ 0 t z h]
      exact Nat.choose_pos (Nat.le_add_right t z)
    · have ht : t ≠ 0 := fun hf => h (Or.inl hf)
      have hz : z ≠ 0 := fun hf => h (Or.inr hf)
      obtain ⟨t1, rfl⟩ : ∃ t1, t = t1 + 1 := ⟨t - 1, by omega⟩
      obtain ⟨z1, rfl⟩ : ∃ z1, z = z1 + 1 := ⟨z - 1, by omega⟩
      by_cases hbit : bit
      · subst hbit
        simp only [gpiLoop, if_neg h, if_pos trivial]
        rw [gpiLoop_index_add rest]
        dsimp only
        simp only [Nat.add_sub_cancel, Nat.zero_add]
        have hc : binomial_coefficient (t1 + 1 + (z1 + 1) - 1) (t1 + 1)
            = Nat.choose (t1 + z1 + 1) (t1 + 1) := by
          rw [binomial_coefficient_eq_choose]
          congr 1
          omega
        have hih : (gpiLoop rest 0 t1 (z1 + 1)).1 < Nat.choose (t1 + z1 + 1) t1 := by
          have hx := ih t1 (z1 + 1)
          rwa [show t1 + (z1 + 1) = t1 + z1 + 1 from by omega] at hx
        rw [hc, show t1 + 1 + (z1 + 1) = t1 + z1 + 1 + 1 from by omega]
        have hpascal := Nat.choose_succ_succ' (t1 + z1 + 1) t1
        omega
      · simp only [Bool.not_eq_true] at hbit
        subst hbit
        simp only [gpiLoop, if_neg h, Bool.false_eq_true, if_neg (fun hf => hf),
          Nat.add_sub_cancel]
        have hih := ih (t1 + 1) z1
        have hmono : Nat.choose (t1 + 1 + z1) (t1 + 1)
            ≤ Nat.choose (t1 + 1 + (z1 + 1)) (t1 + 1) :=
          Nat.choose_le_choose _ (by omega)
        omega

/-! Structural lemmas about the batch unranking loop. -/

theorem gnpLoop_no_ones (zeros_rem index : Nat) :
    gnpLoop zeros_rem index 0 zeros_rem = List.replicate zeros_rem false := by
  cases zeros_rem with
  | zero => rfl
  | succ z => simp [gnpLoop]

theorem gnpLoop_no_zeros (ones_rem index : Nat) :
    gnpLoop ones_rem index ones_rem 0 = List.replicate ones_rem true := by
  cases ones_rem with
  | zero => rfl
  | succ t => simp [gnpLoop]

theorem gnpLoop_length :
    ∀ fuel index ones_rem zeros_rem, fuel = ones_rem + zeros_rem →
      (gnpLoop fuel index ones_rem zeros_rem).length = ones_rem + zeros_rem := by
  intro fuel
  induction fuel with
  | zero => intro index t z h; simp [gnpLoop]; omega
  | succ f ih =>
    intro index t z h
    by_cases ht : t = 0
    · subst ht; simp [gnpLoop]
    · by_cases hz : z = 0
      · subst hz; simp [gnpLoop, ht]
      · simp only [gnpLoop, if_neg ht, if_neg hz]
        by_cases hcmp : binomial_coefficient (t + z - 1) t > index
        · simp only [if_pos hcmp, List.length_cons]
          rw [ih index t (z - 1) (by omega)]
          omega
        · simp only [if_neg hcmp, List.length_cons]
          rw [ih (index - binomial_coefficient (t + z - 1) t) (t - 1) z (by omega)]
          omega

theorem gnpLoop_counts :
    ∀ fuel index ones_rem zeros_rem, fuel = ones_rem + zeros_rem →
      (gnpLoop fuel index ones_rem zeros_rem).count true = ones_rem ∧
        (gnpLoop fuel index ones_rem zeros_rem).count false = zeros_rem := by
  intro fuel
  induction fuel with
  | zero =>
    intro index t z h
    have ht : t = 0 := by omega
    have hz : z = 0 := by omega
    subst ht; subst hz; simp [gnpLoop]
  | succ f ih =>
    intro index t z h
    by_cases ht : t = 0
    · subst ht
      simp [gnpLoop, List.count_replicate]
    · by_cases hz : z = 0
      · subst hz
        simp [gnpLoop, ht, List.count_replicate]
      · simp only [gnpLoop, if_neg ht, if_neg hz]
        by_cases hcmp : binomial_coefficient (t + z - 1) t > index
        · simp only [if_pos hcmp]
          have hrec := ih index t (z - 1) (by omega)
          constructor
          · rw [List.count_cons_of_ne (by simp), hrec.1]
          · rw [List.count_cons_self, hrec.2]
            omega
        · simp only [if_neg hcmp]
          have hrec := ih (index - binomial_coefficient (t + z - 1) t) (t - 1) z (by omega)
          constructor
          · rw [List.count_cons_self, hrec.1]
            omega
          · rw [List.count_cons_of_ne (by simp), hrec.2]

/-! Lemmas connecting a bit sequence's composition with its encoding. -/

theorem eq_replicate_of_count_false_zero :
    ∀ bits : List Bool, bits.count false = 0 →
      bits = List.replicate (bits.count true) true := by
  intro bits
  induction bits with
  | nil => intro _; simp
  | cons bit rest ih =>
    intro h
    cases bit with
    | false =>
      rw [List.count_cons_self] at h
      exact absurd h (by omega)
    | true =>
      rw [List.count_cons_of_ne (by simp)] at h
      rw [List.count_cons_self, List.replicate_succ, ← ih h]

theorem eq_replicate_of_count_true_zero :
    ∀ bits : List Bool, bits.count true = 0 →
      bits = List.replicate (bits.count false) false := by
  intro bits
  induction bits with
  | nil => intro _; simp
  | cons bit rest ih =>
    intro h
    cases bit with
    | true =>
      rw [List.count_cons_self] at h
      exact absurd h (by omega)
    | false =>
      rw [List.count_cons_of_ne (by simp)] at h
      rw [List.count_cons_self, List.replicate_succ, ← ih h]

theorem gpiLoop_fst_add (bits : List Bool) (index ones_rem zeros_rem : Nat) :
    (gpiLoop bits index ones_rem zeros_rem).1
      = (gpiLoop bits 0 ones_rem zeros_rem).1 + index := by
  rw [gpiLoop_index_add bits index ones_rem zeros_rem]

theorem gpiLoop_cons_true (rest : List Bool) (index ones_rem zeros_rem : Nat)
    (h : ¬(ones_rem = 0 ∨ zeros_rem = 0)) :
    gpiLoop (true :: rest) index ones_rem zeros_rem
      = gpiLoop rest
          (index + binomial_coefficient (ones_rem + zeros_rem - 1) ones_rem)
          (ones_rem - 1) zeros_rem := by
  show (if ones_rem = 0 ∨ zeros_rem = 0 then _
    else if true then _ else _) = _
  rw [if_neg h, if_pos rfl]

theorem gpiLoop_cons_false (rest : List Bool) (index ones_rem zeros_rem : Nat)
    (h : ¬(ones_rem = 0 ∨ zeros_rem = 0)) :
    gpiLoop (false :: rest) index ones_rem zeros_rem
      = gpiLoop rest index ones_rem (zeros_rem - 1) := by
  show (if ones_rem = 0 ∨ zeros_rem = 0 then _
    else if false then _ else _) = _
  rw [if_neg h, if_neg (by simp)]

theorem gnpLoop_succ (fuel index ones_rem zeros_rem : Nat)
    (ht : ¬(ones_rem = 0)) (hz : ¬(zeros_rem = 0)) :
    gnpLoop (fuel + 1) index ones_rem zeros_rem
      = if binomial_coefficient (ones_rem + zeros_rem - 1) ones_rem > index
        then false :: gnpLoop fuel index ones_rem (zeros_rem - 1)
        else true :: gnpLoop fuel
          (index - binomial_coefficient (ones_rem + zeros_rem - 1) ones_rem)
          (ones_rem - 1) zeros_rem := by
  show (if ones_rem = 0 then _ else if zeros_rem = 0 then _ else _) = _
  rw [if_neg ht, if_neg hz]

theorem roundtrip_aux :
    ∀ bits : List Bool,
      gnpLoop (bits.count true + bits.count false)
        (gpiLoop bits 0 (bits.count true) (bits.count false)).1
        (bits.count true) (bits.count false) = bits := by
  intro bits
  induction bits with
  | nil => rfl
  | cons bit rest ih =>
    cases bit with
    | true =>
      rw [List.count_cons_self, List.count_cons_of_ne (by simp)]
      by_cases hz : rest.count false = 0
      · rw [hz]
        rw [gpiLoop_stopped _ 0 _ 0 (Or.inr rfl)]
        rw [Nat.add_zero, gnpLoop_no_zeros, List.replicate_succ,
          ← eq_replicate_of_count_false_zero rest hz]
      · have hcond : ¬(rest.count true + 1 = 0 ∨ rest.count false = 0) := by
          intro hor
          rcases hor with h1 | h2
          · omega
          · exact hz h2
        rw [gpiLoop_cons_true rest 0 _ _ hcond]
        simp only [Nat.add_sub_cancel, Nat.zero_add]
        rw [gpiLoop_fst_add rest]
        rw [show rest.count true + 1 + rest.count false - 1
            = rest.count true + rest.count false from by omega]
        rw [show rest.count true + 1 + rest.count false
            = (rest.count true + rest.count false) + 1 from by omega]
        rw [gnpLoop_succ _ _ _ _ (by omega) hz]
        rw [show rest.count true + 1 + rest.count false - 1
            = rest.count true + rest.count false from by omega]
        rw [if_neg (show ¬(binomial_coefficient (rest.count true + rest.count false)
            (rest.count true + 1) > (gpiLoop rest 0 (rest.count true) (rest.count false)).1 +
            binomial_coefficient (rest.count true + rest.count false)
            (rest.count true + 1)) from by omega)]
        rw [Nat.add_sub_cancel, Nat.add_sub_cancel, ih]
    | false =>
      rw [List.count_cons_of_ne (by simp), List.count_cons_self]
      by_cases ht : rest.count true = 0
      · rw [ht]
        rw [gpiLoop_stopped _ 0 0 _ (Or.inl rfl)]
        rw [Nat.zero_add, gnpLoop_no_ones, List.replicate_succ,
          ← eq_replicate_of_count_true_zero rest ht]
      · have hcond : ¬(rest.count true = 0 ∨ rest.count false + 1 = 0) := by
          intro hor
          rcases hor with h1 | h2
          · exact ht h1
          · omega
        rw [gpiLoop_cons_false rest 0 _ _ hcond]
        simp only [Nat.add_sub_cancel]
        rw [show rest.count true + (rest.count false + 1)
            = (rest.count true + rest.count false) + 1 from by omega]
        rw [gnpLoop_succ _ _ _ _ ht (by omega)]
        have hgt : binomial_coefficient (rest.count true + (rest.count false + 1) - 1)
            (rest.count true) > (gpiLoop rest 0 (rest.count true) (rest.count false)).1 := by
          rw [binomial_coefficient_eq_choose,
            show rest.count true + (rest.count false + 1) - 1
              = rest.count true + rest.count false from by omega]
          exact gpiLoop_lt_choose rest (rest.count true) (rest.count false)
        rw [if_pos hgt]
        simp only [Nat.add_sub_cancel]
        rw [ih]

/-! Lemmas about the streaming encoder. -/

theorem process_chunk_cons_stopped (r : BitRanker) (bit : Bool) (rest : List Bool)
    (h : r.remaining_ones = 0 ∨ r.remaining_zeros = 0) :
    r.process_chunk (bit :: rest) = r := by
  show (if r.remaining_ones = 0 ∨ r.remaining_zeros = 0 then _ else _) = _
  rw [if_pos h]

theorem process_chunk_stopped (r : BitRanker)
    (h : r.remaining_ones = 0 ∨ r.remaining_zeros = 0) :
    ∀ chunk, r.process_chunk chunk = r := by
  intro chunk
  cases chunk with
  | nil => rfl
  | cons bit rest => exact process_chunk_cons_stopped r bit rest h

theorem process_chunk_cons_true (r : BitRanker) (rest : List Bool)
    (h : ¬(r.remaining_ones = 0 ∨ r.remaining_zeros = 0)) :
    r.process_chunk (true :: rest)
      = BitRanker.process_chunk
          { r with
            current_index := r.current_index +
              BINOM_CACHE_get ((r.remaining_ones + r.remaining_zeros) % U64 - 1)
                r.remaining_ones
            remaining_ones := r.remaining_ones - 1 } rest := by
  show (if r.remaining_ones = 0 ∨ r.remaining_zeros = 0 then _
    else if true then _ else _) = _
  rw [if_neg h, if_pos rfl]

theorem process_chunk_cons_false (r : BitRanker) (rest : List Bool)
    (h : ¬(r.remaining_ones = 0 ∨ r.remaining_zeros = 0)) :
    r.process_chunk (false :: rest)
      = BitRanker.process_chunk { r with remaining_zeros := r.remaining_zeros - 1 } rest := by
  show (if r.remaining_ones = 0 ∨ r.remaining_zeros = 0 then _
    else if false then _ else _) = _
  rw [if_neg h, if_neg (by simp)]

theorem process_chunk_append (c1 c2 : List Bool) :
    ∀ r : BitRanker, r.process_chunk (c1 ++ c2) = (r.process_chunk c1).process_chunk c2 := by
  induction c1 with
  | nil => intro r; rfl
  | cons bit rest ih =>
    intro r
    by_cases h : r.remaining_ones = 0 ∨ r.remaining_zeros = 0
    · rw [List.cons_append, process_chunk_cons_stopped r bit _ h,
        process_chunk_cons_stopped r bit rest h, process_chunk_stopped r h]
    · cases bit with
      | true =>
        rw [List.cons_append, process_chunk_cons_true r _ h, process_chunk_cons_true r rest h]
        exact ih _
      | false =>
        rw [List.cons_append, process_chunk_cons_false r _ h, process_chunk_cons_false r rest h]
        exact ih _

theorem foldl_process_chunk_flatten (chunks : List (List Bool)) :
    ∀ r : BitRanker, chunks.foldl BitRanker.process_chunk r = r.process_chunk chunks.flatten := by
  induction chunks with
  | nil => intro r; rfl
  | cons c rest ih =>
    intro r
    rw [List.flatten_cons, List.foldl_cons, ih (r.process_chunk c), process_chunk_append]

theorem process_chunk_eq_gpiLoop :
    ∀ (chunk : List Bool) (r : BitRanker),
      r.remaining_ones + r.remaining_zeros < U64 →
      r.process_chunk chunk
        = { total_ones := r.total_ones
            total_zeros := r.total_zeros
            remaining_ones :=
              (gpiLoop chunk r.current_index r.remaining_ones r.remaining_zeros).2.1
            remaining_zeros :=
              (gpiLoop chunk r.current_index r.remaining_ones r.remaining_zeros).2.2
            current_index :=
              (gpiLoop chunk r.current_index r.remaining_ones r.remaining_zeros).1 } := by
  intro chunk
  induction chunk with
  | nil => intro r _; rfl
  | cons bit rest ih =>
    intro r hr
    by_cases h : r.remaining_ones = 0 ∨ r.remaining_zeros = 0
    · rw [process_chunk_cons_stopped r bit rest h, gpiLoop_stopped _ _ _ _ h]
    · have hb : BINOM_CACHE_get ((r.remaining_ones + r.remaining_zeros) % U64 - 1)
          r.remaining_ones
          = binomial_coefficient (r.remaining_ones + r.remaining_zeros - 1)
              r.remaining_ones := by
        rw [Nat.mod_eq_of_lt hr, BINOM_CACHE_get_eq_choose _ _ (by omega),
          binomial_coefficient_eq_choose]
      cases bit with
      | true =>
        rw [process_chunk_cons_true r rest h]
        rw [ih { r with
            current_index := r.current_index +
              BINOM_CACHE_get ((r.remaining_ones + r.remaining_zeros) % U64 - 1)
                r.remaining_ones
            remaining_ones := r.remaining_ones - 1 } (by dsimp only; omega)]
        dsimp only
        rw [gpiLoop_cons_true rest _ _ _ h, hb]
      | false =>
        rw [process_chunk_cons_false r rest h]
        rw [ih { r with remaining_zeros := r.remaining_zeros - 1 } (by dsimp only; omega)]
        dsimp only
        rw [gpiLoop_cons_false rest _ _ _ h]

/-! Lemmas about the streaming decoder. -/

theorem replicate_eq_cons {α : Type} (n : Nat) (a : α) (h : n ≠ 0) :
    List.replicate n a = a :: List.replicate (n - 1) a := by
  cases n with
  | zero => exact absurd rfl h
  | succ m => simp [List.replicate_succ]

theorem BINOM_CACHE_get_eq_binomial (ro rz : Nat) (hcap : ro + rz < U64) (hz : rz ≠ 0) :
    BINOM_CACHE_get ((ro + rz) % U64 - 1) ro = binomial_coefficient (ro + rz - 1) ro := by
  rw [Nat.mod_eq_of_lt hcap, BINOM_CACHE_get_eq_choose _ _ (by omega),
    binomial_coefficient_eq_choose]

theorem nextChunkLoop_succ_no_ones (u : BitUnranker) (count : Nat)
    (h : u.remaining_ones = 0) :
    u.nextChunkLoop (count + 1)
      = (false :: (BitUnranker.nextChunkLoop
            { u with remaining_zeros := u.remaining_zeros - 1 } count).1,
         (BitUnranker.nextChunkLoop
            { u with remaining_zeros := u.remaining_zeros - 1 } count).2) := by
  show (if u.remaining_ones = 0 then _ else _) = _
  rw [if_pos h]

theorem nextChunkLoop_succ_no_zeros (u : BitUnranker) (count : Nat)
    (h1 : ¬(u.remaining_ones = 0)) (h2 : u.remaining_zeros = 0) :
    u.nextChunkLoop (count + 1)
      = (true :: (BitUnranker.nextChunkLoop
            { u with remaining_ones := u.remaining_ones - 1 } count).1,
         (BitUnranker.nextChunkLoop
            { u with remaining_ones := u.remaining_ones - 1 } count).2) := by
  show (if u.remaining_ones = 0 then _ else if u.remaining_zeros = 0 then _ else _) = _
  rw [if_neg h1, if_pos h2]

theorem nextChunkLoop_succ_emit_false (u : BitUnranker) (count : Nat)
    (h1 : ¬(u.remaining_ones = 0)) (h2 : ¬(u.remaining_zeros = 0))
    (hc : BINOM_CACHE_get ((u.remaining_ones + u.remaining_zeros) % U64 - 1) u.remaining_ones
        > u.remaining_index) :
    u.nextChunkLoop (count + 1)
      = (false :: (BitUnranker.nextChunkLoop
            { u with remaining_zeros := u.remaining_zeros - 1 } count).1,
         (BitUnranker.nextChunkLoop
            { u with remaining_zeros := u.remaining_zeros - 1 } count).2) := by
  show (if u.remaining_ones = 0 then _
    else if u.remaining_zeros = 0 then _
    else if BINOM_CACHE_get ((u.remaining_ones + u.remaining_zeros) % U64 - 1) u.remaining_ones
        > u.remaining_index then _ else _) = _
  rw [if_neg h1, if_neg h2, if_pos hc]

theorem nextChunkLoop_succ_emit_true (u : BitUnranker) (count : Nat)
    (h1 : ¬(u.remaining_ones = 0)) (h2 : ¬(u.remaining_zeros = 0))
    (hc : ¬(BINOM_CACHE_get ((u.remaining_ones + u.remaining_zeros) % U64 - 1) u.remaining_ones
        > u.remaining_index)) :
    u.nextChunkLoop (count + 1)
      = (true :: (BitUnranker.nextChunkLoop
            { u with
              remaining_index := u.remaining_index -
                BINOM_CACHE_get ((u.remaining_ones + u.remaining_zeros) % U64 - 1)
                  u.remaining_ones
              remaining_ones := u.remaining_ones - 1 } count).1,
         (BitUnranker.nextChunkLoop
            { u with
              remaining_index := u.remaining_index -
                BINOM_CACHE_get ((u.remaining_ones + u.remaining_zeros) % U64 - 1)
                  u.remaining_ones
              remaining_ones := u.remaining_ones - 1 } count).2) := by
  show (if u.remaining_ones = 0 then _
    else if u.remaining_zeros = 0 then _
    else if BINOM_CACHE_get ((u.remaining_ones + u.remaining_zeros) % U64 - 1) u.remaining_ones
        > u.remaining_index then _ else _) = _
  rw [if_neg h1, if_neg h2, if_neg hc]

theorem nextChunkLoop_spec :
    ∀ (count : Nat) (u : BitUnranker),
      u.remaining_ones + u.remaining_zeros < U64 →
      count ≤ u.remaining_ones + u.remaining_zeros →
      (u.nextChunkLoop count).1 ++ unrankRemaining (u.nextChunkLoop count).2
          = unrankRemaining u
        ∧ (u.nextChunkLoop count).2.remaining_ones
            + (u.nextChunkLoop count).2.remaining_zeros
          = u.remaining_ones + u.remaining_zeros - count
        ∧ (u.nextChunkLoop count).1.length = count := by
  intro count
  induction count with
  | zero =>
    intro u hcap hcount
    exact ⟨rfl, rfl, rfl⟩
  | succ m ih =>
    intro u hcap hcount
    by_cases h1 : u.remaining_ones = 0
    · have hrz : u.remaining_zeros ≠ 0 := by omega
      rw [nextChunkLoop_succ_no_ones u m h1]
      have ihm := ih { u with remaining_zeros := u.remaining_zeros - 1 }
        (by dsimp only; omega) (by dsimp only; omega)
      refine ⟨?_, ?_, ?_⟩
      · rw [List.cons_append, ihm.1]
        simp only [unrankRemaining]
        rw [h1, Nat.zero_add, Nat.zero_add, gnpLoop_no_ones, gnpLoop_no_ones,
          replicate_eq_cons u.remaining_zeros false hrz]
      · dsimp only
        have h2 := ihm.2.1
        dsimp only at h2
        omega
      · dsimp only
        rw [List.length_cons, ihm.2.2]
    · by_cases h2 : u.remaining_zeros = 0
      · rw [nextChunkLoop_succ_no_zeros u m h1 h2]
        have ihm := ih { u with remaining_ones := u.remaining_ones - 1 }
          (by dsimp only; omega) (by dsimp only; omega)
        refine ⟨?_, ?_, ?_⟩
        · rw [List.cons_append, ihm.1]
          simp only [unrankRemaining]
          rw [h2, Nat.add_zero, Nat.add_zero, gnpLoop_no_zeros, gnpLoop_no_zeros,
            replicate_eq_cons u.remaining_ones true h1]
        · dsimp only
          have hx := ihm.2.1
          dsimp only at hx
          omega
        · dsimp only
          rw [List.length_cons, ihm.2.2]
      · have hbc : BINOM_CACHE_get
            ((u.remaining_ones + u.remaining_zeros) % U64 - 1) u.remaining_ones
            = binomial_coefficient (u.remaining_ones + u.remaining_zeros - 1)
                u.remaining_ones :=
          BINOM_CACHE_get_eq_binomial _ _ hcap h2
        by_cases hc : BINOM_CACHE_get
            ((u.remaining_ones + u.remaining_zeros) % U64 - 1) u.remaining_ones
            > u.remaining_index
        · rw [nextChunkLoop_succ_emit_false u m h1 h2 hc]
          have ihm := ih { u with remaining_zeros := u.remaining_zeros - 1 }
            (by dsimp only; omega) (by dsimp only; omega)
          refine ⟨?_, ?_, ?_⟩
          · rw [List.cons_append, ihm.1]
            simp only [unrankRemaining]
            rw [show u.remaining_ones + (u.remaining_zeros - 1)
                = u.remaining_ones + u.remaining_zeros - 1 from by omega]
            conv_rhs =>
              rw [show u.remaining_ones + u.remaining_zeros
                  = (u.remaining_ones + u.remaining_zeros - 1) + 1 from by omega]
            rw [gnpLoop_succ _ _ _ _ h1 h2]
            rw [if_pos (by rw [hbc] at hc; exact hc)]
          · dsimp only
            have hx := ihm.2.1
            dsimp only at hx
            omega
          · dsimp only
            rw [List.length_cons, ihm.2.2]
        · rw [nextChunkLoop_succ_emit_true u m h1 h2 hc]
          have ihm := ih { u with
              remaining_index := u.remaining_index -
                BINOM_CACHE_get ((u.remaining_ones + u.remaining_zeros) % U64 - 1)
                  u.remaining_ones
              remaining_ones := u.remaining_ones - 1 }
            (by dsimp only; omega) (by dsimp only; omega)
          refine ⟨?_, ?_, ?_⟩
          · rw [List.cons_append, ihm.1]
            simp only [unrankRemaining]
            rw [show u.remaining_ones - 1 + u.remaining_zeros
                = u.remaining_ones + u.remaining_zeros - 1 from by omega]
            conv_rhs =>
              rw [show u.remaining_ones + u.remaining_zeros
                  = (u.remaining_ones + u.remaining_zeros - 1) + 1 from by omega]
            rw [gnpLoop_succ _ _ _ _ h1 h2]
            rw [if_neg (by rw [hbc] at hc; exact hc), hbc]
          · dsimp only
            have hx := ihm.2.1
            dsimp only at hx
            omega
          · dsimp only
            rw [List.length_cons, ihm.2.2]

theorem next_chunk_exhausted (u : BitUnranker) (chunk_size : Nat)
    (h1 : u.remaining_ones = 0) (h2 : u.remaining_zeros = 0) :
    u.next_chunk chunk_size = ([], u) := by
  show u.nextChunkLoop (min chunk_size ((u.remaining_ones + u.remaining_zeros) % U64)) = _
  rw [h1, h2]
  have hz : min chunk_size ((0 + 0) % U64) = 0 := by simp
  rw [hz]
  rfl

theorem streamDecode_spec :
    ∀ (maxLens : List Nat) (u : BitUnranker),
      u.remaining_ones + u.remaining_zeros < U64 →
      (streamDecode u maxLens).1 ++ unrankRemaining (streamDecode u maxLens).2
          = unrankRemaining u
        ∧ (streamDecode u maxLens).2.remaining_ones
            + (streamDecode u maxLens).2.remaining_zeros
          = u.remaining_ones + u.remaining_zeros - maxLens.sum
        ∧ (streamDecode u maxLens).1.length
          = u.remaining_ones + u.remaining_zeros
            - (u.remaining_ones + u.remaining_zeros - maxLens.sum) := by
  intro maxLens
  induction maxLens with
  | nil =>
    intro u hcap
    refine ⟨rfl, rfl, ?_⟩
    show (0 : Nat) = u.remaining_ones + u.remaining_zeros
      - (u.remaining_ones + u.remaining_zeros - 0)
    omega
  | cons m rest ih =>
    intro u hcap
    simp only [streamDecode, BitUnranker.next_chunk]
    rw [Nat.mod_eq_of_lt hcap]
    have hmin : min m (u.remaining_ones + u.remaining_zeros)
        ≤ u.remaining_ones + u.remaining_zeros := Nat.min_le_right _ _
    have hstep := nextChunkLoop_spec
      (min m (u.remaining_ones + u.remaining_zeros)) u hcap hmin
    have hcap2 : (u.nextChunkLoop (min m (u.remaining_ones + u.remaining_zeros))).2.remaining_ones
        + (u.nextChunkLoop (min m (u.remaining_ones + u.remaining_zeros))).2.remaining_zeros
        < U64 := by
      have hx := hstep.2.1
      omega
    have hihm := ih
      (u.nextChunkLoop (min m (u.remaining_ones + u.remaining_zeros))).2 hcap2
    refine ⟨?_, ?_, ?_⟩
    · dsimp only
      rw [List.append_assoc, hihm.1, hstep.1]
    · dsimp only
      rw [List.sum_cons]
      have a1 := hstep.2.1
      have a2 := hihm.2.1
      omega
    · dsimp only
      rw [List.length_append, List.sum_cons]
      have a1 := hstep.2.1
      have a2 := hihm.2.1
      have a3 := hstep.2.2
      have a4 := hihm.2.2
      omega

theorem unrankRemaining_exhausted (u : BitUnranker)
    (h : u.remaining_ones + u.remaining_zeros = 0) : unrankRemaining u = [] := by
  simp only [unrankRemaining]
  rw [h]
  rfl

theorem streamDecode_eq_batch (index ones zeros : Nat) (maxLens : List Nat)
    (hcap : ones + zeros < U64) (hsum : ones + zeros ≤ maxLens.sum) :
    (streamDecode (BitUnranker.new index ones zeros) maxLens).1
      = get_nth_permutation index ones zeros := by
  have hspec := streamDecode_spec maxLens (BitUnranker.new index ones zeros) (by exact hcap)
  have e1 : (BitUnranker.new index ones zeros).remaining_ones = ones := rfl
  have e2 : (BitUnranker.new index ones zeros).remaining_zeros = zeros := rfl
  rw [e1, e2] at hspec
  have hz : (streamDecode (BitUnranker.new index ones zeros) maxLens).2.remaining_ones
      + (streamDecode (BitUnranker.new index ones zeros) maxLens).2.remaining_zeros = 0 := by
    have hx := hspec.2.1
    omega
  have h1 := hspec.1
  rw [unrankRemaining_exhausted _ hz, List.append_nil] at h1
  rw [h1]
  rfl

theorem stream_rank_eq_batch (ones zeros : Nat) (chunks : List (List Bool))
    (hcap : ones + zeros < U64) :
    (chunks.foldl BitRanker.process_chunk (BitRanker.new ones zeros)).finalize
      = get_permutation_index chunks.flatten ones zeros := by
  rw [foldl_process_chunk_flatten, process_chunk_eq_gpiLoop chunks.flatten
    (BitRanker.new ones zeros) (by exact hcap)]
  rfl

/-! Claim theorems. -/

/-- C1: for every composition `(ones, zeros)` and every bit sequence
containing exactly `ones` set and `zeros` unset bits, decoding the rank
produced by encoding the sequence with the same composition returns the
original sequence:
`get_nth_permutation (get_permutation_index bits ones zeros) ones zeros = bits`. -/
theorem c1_round_trip (bits : List Bool) (ones zeros : Nat)
    (h1 : bits.count true = ones) (h0 : bits.count false = zeros) :
    get_nth_permutation (get_permutation_index bits ones zeros) ones zeros = bits := by
  subst h1
  subst h0
  exact roundtrip_aux bits

theorem c1_round_trip_witness :
    ([true, false, true, true, false] : List Bool).count true = 3
      ∧ ([true, false, true, true, false] : List Bool).count false = 2
      ∧ get_nth_permutation (get_permutation_index [true, false, true, true, false] 3 2) 3 2
        = [true, false, true, true, false] :=
  ⟨by decide, by decide, c1_round_trip [true, false, true, true, false] 3 2 (by decide) (by decide)⟩

/-- C2: for every composition whose total length fits in `u64`, the
streaming encoder yields the batch encoder's rank no matter how the
sequence is split into chunks (a single whole-sequence chunk is the
list `[bits]`), and driving the streaming decoder with any sequence of
`max_len` values whose total covers the sequence reproduces the batch
decoder's output. -/
theorem c2_streaming_batch_equivalence :
    (∀ (ones zeros : Nat) (chunks : List (List Bool)), ones + zeros < U64 →
      (chunks.foldl BitRanker.process_chunk (BitRanker.new ones zeros)).finalize
        = get_permutation_index chunks.flatten ones zeros)
    ∧ (∀ (index ones zeros : Nat) (maxLens : List Nat),
        ones + zeros < U64 → ones + zeros ≤ maxLens.sum →
        (streamDecode (BitUnranker.new index ones zeros) maxLens).1
          = get_nth_permutation index ones zeros) :=
  ⟨fun ones zeros chunks hcap => stream_rank_eq_batch ones zeros chunks hcap,
   fun index ones zeros maxLens hcap hsum =>
     streamDecode_eq_batch index ones zeros maxLens hcap hsum⟩

theorem c2_streaming_batch_equivalence_witness :
    ((3 : Nat) + 2 < U64
      ∧ (([[true], [], [false, true, true], [false]] : List (List Bool)).foldl
          BitRanker.process_chunk (BitRanker.new 3 2)).finalize
        = get_permutation_index
            ([[true], [], [false, true, true], [false]] : List (List Bool)).flatten 3 2)
    ∧ ((3 : Nat) + 2 < U64 ∧ (3 : Nat) + 2 ≤ ([2, 1, 2] : List Nat).sum
      ∧ (streamDecode (BitUnranker.new 6 3 2) [2, 1, 2]).1 = get_nth_permutation 6 3 2) :=
  ⟨⟨by decide, c2_streaming_batch_equivalence.1 3 2 [[true], [], [false, true, true], [false]]
      (by decide)⟩,
   ⟨by decide, by decide,
    c2_streaming_batch_equivalence.2 6 3 2 [2, 1, 2] (by decide) (by decide)⟩⟩

/-- C3: every rank the encoder produces lies in `[0, C(ones+zeros, ones))`;
the lower bound is automatic for `Nat`/`BigUint` ranks, and the strict
upper bound holds for the batch encoder on every input sequence and for
the streaming encoder on every chunk sequence (composition total
fitting in `u64`). -/
theorem c3_rank_bound :
    (∀ (bits : List Bool) (ones zeros : Nat),
      get_permutation_index bits ones zeros < Nat.choose (ones + zeros) ones)
    ∧ (∀ (ones zeros : Nat) (chunks : List (List Bool)), ones + zeros < U64 →
        (chunks.foldl BitRanker.process_chunk (BitRanker.new ones zeros)).finalize
          < Nat.choose (ones + zeros) ones) := by
  constructor
  · intro bits ones zeros
    exact gpiLoop_lt_choose bits ones zeros
  · intro ones zeros chunks hcap
    rw [stream_rank_eq_batch ones zeros chunks hcap]
    exact gpiLoop_lt_choose chunks.flatten ones zeros

theorem c3_rank_bound_witness :
    (3 : Nat) + 2 < U64
      ∧ (([[true, false], [true, true, false]] : List (List Bool)).foldl
          BitRanker.process_chunk (BitRanker.new 3 2)).finalize < Nat.choose (3 + 2) 3 :=
  ⟨by decide, c3_rank_bound.2 3 2 [[true, false], [true, true, false]] (by decide)⟩

/-- C4: for all `n ≥ k ≥ 0`, `BinomialCache::get` returns exactly
`C(n, k)` for every well-formed LRU cache state (the precomputed table
is filled deterministically at construction and is modelled by its
contents); in particular `get(50, 25) = 126410606437752` for every
cache state. -/
theorem c4_binomial_get :
    (∀ cache : CacheState, cacheOK cache →
      ∀ n k : Nat, k ≤ n → BinomialCache.get cache n k = Nat.choose n k)
    ∧ ∀ cache : CacheState, BinomialCache.get cache 50 25 = 126410606437752 := by
  constructor
  · intro cache hc n k hk
    exact BinomialCache_get_eq_choose cache hc n k hk
  · intro cache
    exact (by decide : compute_binomial 50 (min 25 (50 - 25)) = 126410606437752)

theorem c4_binomial_get_witness :
    cacheOK (fun _ => none) ∧ (2 : Nat) ≤ 4
      ∧ BinomialCache.get (fun _ => none) 4 2 = Nat.choose 4 2 :=
  by
  have hok : cacheOK (fun _ => none) := by
    intro n k v h
    exact Option.noConfusion h
  exact ⟨hok, by decide, c4_binomial_get.1 (fun _ => none) hok 4 2 (by decide)⟩

theorem gpiLoop_counts_state :
    ∀ (p : List Bool) (index ones zeros : Nat),
      p.count true < ones → p.count false < zeros →
      (gpiLoop p index ones zeros).2.1 = ones - p.count true
        ∧ (gpiLoop p index ones zeros).2.2 = zeros - p.count false := by
  intro p
  induction p with
  | nil =>
    intro index ones zeros _ _
    exact ⟨rfl, rfl⟩
  | cons bit rest ih =>
    intro index ones zeros hpt hpf
    have hno : ¬(ones = 0 ∨ zeros = 0) := by omega
    cases bit with
    | true =>
      have hrt : rest.count true < ones - 1 := by
        rw [List.count_cons_self] at hpt
        omega
      have hpf' : rest.count false < zeros := by
        rw [List.count_cons_of_ne (by simp)] at hpf
        exact hpf
      rw [List.count_cons_self, List.count_cons_of_ne (by simp),
        gpiLoop_cons_true rest index ones zeros hno]
      have hi := ih (index + binomial_coefficient (ones + zeros - 1) ones)
        (ones - 1) zeros hrt hpf'
      exact ⟨by rw [hi.1]; omega, by rw [hi.2]⟩
    | false =>
      have hpt' : rest.count true < ones := by
        rw [List.count_cons_of_ne (by simp)] at hpt
        exact hpt
      have hrf : rest.count false < zeros - 1 := by
        rw [List.count_cons_self] at hpf
        omega
      rw [List.count_cons_of_ne (by simp), List.count_cons_self,
        gpiLoop_cons_false rest index ones zeros hno]
      have hi := ih index ones (zeros - 1) hpt' hrf
      exact ⟨by rw [hi.1], by rw [hi.2]; omega⟩

/-- C5: of two distinct sequences with the same composition, the
lexicographically earlier one (unset bit at the first differing
position, shared prefix `p`) receives a strictly smaller rank. -/
theorem c5_lex_monotone (p s1 s2 : List Bool) (ones zeros : Nat)
    (h1t : (p ++ false :: s1).count true = ones)
    (h1f : (p ++ false :: s1).count false = zeros)
    (h2t : (p ++ true :: s2).count true = ones)
    (h2f : (p ++ true :: s2).count false = zeros) :
    get_permutation_index (p ++ false :: s1) ones zeros
      < get_permutation_index (p ++ true :: s2) ones zeros := by
  rw [List.count_append, List.count_cons_of_ne (by simp)] at h1t
  rw [List.count_append, List.count_cons_self] at h1f
  rw [List.count_append, List.count_cons_self] at h2t
  rw [List.count_append, List.count_cons_of_ne (by simp)] at h2f
  have hpt : p.count true < ones := by omega
  have hpf : p.count false < zeros := by omega
  have hstate := gpiLoop_counts_state p 0 ones zeros hpt hpf
  show (gpiLoop (p ++ false :: s1) 0 ones zeros).1
    < (gpiLoop (p ++ true :: s2) 0 ones zeros).1
  rw [gpiLoop_append p (false :: s1) 0 ones zeros,
    gpiLoop_append p (true :: s2) 0 ones zeros, hstate.1, hstate.2]
  have hno : ¬(ones - p.count true = 0 ∨ zeros - p.count false = 0) := by omega
  rw [gpiLoop_cons_false s1 _ _ _ hno, gpiLoop_cons_true s2 _ _ _ hno,
    gpiLoop_fst_add s1, gpiLoop_fst_add s2]
  have hlt := gpiLoop_lt_choose s1 (ones - p.count true) (zeros - p.count false - 1)
  have hcc : binomial_coefficient
      (ones - p.count true + (zeros - p.count false) - 1) (ones - p.count true)
      = Nat.choose (ones - p.count true + (zeros - p.count false - 1))
          (ones - p.count true) := by
    rw [binomial_coefficient_eq_choose]
    congr 1
    omega
  rw [hcc]
  omega

theorem c5_lex_monotone_witness :
    (([] ++ false :: [true] : List Bool).count true = 1
        ∧ ([] ++ false :: [true] : List Bool).count false = 1
        ∧ ([] ++ true :: [false] : List Bool).count true = 1
        ∧ ([] ++ true :: [false] : List Bool).count false = 1)
      ∧ get_permutation_index ([] ++ false :: [true]) 1 1
        < get_permutation_index ([] ++ true :: [false]) 1 1 :=
  ⟨⟨by decide, by decide, by decide, by decide⟩,
   c5_lex_monotone [] [true] [false] 1 1 (by decide) (by decide) (by decide) (by decide)⟩

/-- C6: for all valid `n ≥ k`, `BinomialCache::get` is symmetric:
`get(n, k) = get(n, n - k)` for every cache state (both calls reduce to
the same key before any lookup). -/
theorem c6_symmetry (cache : CacheState) (n k : Nat) (h : k ≤ n) :
    BinomialCache.get cache n k = BinomialCache.get cache n (n - k) := by
  simp only [BinomialCache.get]
  rw [Nat.sub_sub_self h, Nat.min_comm k (n - k)]

theorem c6_symmetry_witness :
    (1 : Nat) ≤ 4
      ∧ BinomialCache.get (fun _ => none) 4 1 = BinomialCache.get (fun _ => none) 4 (4 - 1) :=
  ⟨by decide, c6_symmetry (fun _ => none) 4 1 (by decide)⟩

/-- C7: the batch decoder's output always has length `ones + zeros`;
the streaming decoder emits `ones + zeros` bits in total across any
exhausting sequence of `next_chunk` requests; and a `next_chunk` call
made after exhaustion returns an empty chunk (and leaves the state
unchanged) rather than failing. -/
theorem c7_decode_lengths :
    (∀ index ones zeros : Nat, (get_nth_permutation index ones zeros).length = ones + zeros)
    ∧ (∀ (index ones zeros : Nat) (maxLens : List Nat),
        ones + zeros < U64 → ones + zeros ≤ maxLens.sum →
        (streamDecode (BitUnranker.new index ones zeros) maxLens).1.length = ones + zeros)
    ∧ (∀ (u : BitUnranker) (chunk_size : Nat),
        u.remaining_ones = 0 → u.remaining_zeros = 0 →
        u.next_chunk chunk_size = ([], u)) := by
  refine ⟨?_, ?_, ?_⟩
  · intro index ones zeros
    exact gnpLoop_length (ones + zeros) index ones zeros rfl
  · intro index ones zeros maxLens hcap hsum
    rw [streamDecode_eq_batch index ones zeros maxLens hcap hsum]
    exact gnpLoop_length (ones + zeros) index ones zeros rfl
  · intro u chunk_size h1 h2
    exact next_chunk_exhausted u chunk_size h1 h2

theorem c7_decode_lengths_witness :
    ((3 : Nat) + 2 < U64 ∧ (3 : Nat) + 2 ≤ ([4, 4] : List Nat).sum
        ∧ (streamDecode (BitUnranker.new 6 3 2) [4, 4]).1.length = 3 + 2)
      ∧ ((BitUnranker.new 9 0 0).remaining_ones = 0
        ∧ (BitUnranker.new 9 0 0).remaining_zeros = 0
        ∧ (BitUnranker.new 9 0 0).next_chunk 7 = ([], BitUnranker.new 9 0 0)) :=
  ⟨⟨by decide, by decide, c7_decode_lengths.2.1 6 3 2 [4, 4] (by decide) (by decide)⟩,
   ⟨rfl, rfl, c7_decode_lengths.2.2 (BitUnranker.new 9 0 0) 7 rfl rfl⟩⟩

/-- C8: once `remaining_ones = 0` or `remaining_zeros = 0`, the encoder
processes further input as a no-op: the rank accumulator and the
remaining counts are unchanged for any further chunk (or list of
chunks), and the batch loop likewise returns its state unchanged; no
error is signalled (the operations are total), so excess bits are
silently absorbed. -/
theorem c8_early_stop :
    (∀ r : BitRanker, r.remaining_ones = 0 ∨ r.remaining_zeros = 0 →
      (∀ chunk : List Bool, r.process_chunk chunk = r)
        ∧ ∀ chunks : List (List Bool), chunks.foldl BitRanker.process_chunk r = r)
    ∧ ∀ (bits : List Bool) (index ones_rem zeros_rem : Nat),
        ones_rem = 0 ∨ zeros_rem = 0 →
        gpiLoop bits index ones_rem zeros_rem = (index, ones_rem, zeros_rem) := by
  constructor
  · intro r h
    refine ⟨process_chunk_stopped r h, ?_⟩
    intro chunks
    induction chunks with
    | nil => rfl
    | cons c rest ih => rw [List.foldl_cons, process_chunk_stopped r h, ih]
  · intro bits index t z h
    exact gpiLoop_stopped bits index t z h

theorem c8_early_stop_witness :
    ((BitRanker.new 0 3).remaining_ones = 0 ∨ (BitRanker.new 0 3).remaining_zeros = 0)
      ∧ (BitRanker.new 0 3).process_chunk [true, true] = BitRanker.new 0 3 :=
  ⟨Or.inl rfl, (c8_early_stop.1 (BitRanker.new 0 3) (Or.inl rfl)).1 [true, true]⟩

/-- C10: for every rank input, including ranks at or above
`C(ones+zeros, ones)`, the decoder's complete output contains exactly
`ones` set bits and `zeros` unset bits — for the batch decoder always,
and for the streaming decoder across any exhausting request sequence. -/
theorem c10_decoder_composition :
    (∀ index ones zeros : Nat,
      (get_nth_permutation index ones zeros).count true = ones
        ∧ (get_nth_permutation index ones zeros).count false = zeros)
    ∧ (∀ (index ones zeros : Nat) (maxLens : List Nat),
        ones + zeros < U64 → ones + zeros ≤ maxLens.sum →
        (streamDecode (BitUnranker.new index ones zeros) maxLens).1.count true = ones
          ∧ (streamDecode (BitUnranker.new index ones zeros) maxLens).1.count false
            = zeros) := by
  constructor
  · intro index ones zeros
    exact gnpLoop_counts (ones + zeros) index ones zeros rfl
  · intro index ones zeros maxLens hcap hsum
    rw [streamDecode_eq_batch index ones zeros maxLens hcap hsum]
    exact gnpLoop_counts (ones + zeros) index ones zeros rfl

theorem c10_decoder_composition_witness :
    (3 : Nat) + 2 < U64 ∧ (3 : Nat) + 2 ≤ ([64] : List Nat).sum
      ∧ (streamDecode (BitUnranker.new 99 3 2) [64]).1.count true = 3
      ∧ (streamDecode (BitUnranker.new 99 3 2) [64]).1.count false = 2 :=
  ⟨by decide, by decide,
   (c10_decoder_composition.2 99 3 2 [64] (by decide) (by decide)).1,
   (c10_decoder_composition.2 99 3 2 [64] (by decide) (by decide)).2⟩

/-- C9 (counterexample): encoding `[1,0,1,1]` with declared composition
`ones = 3, zeros = 2` does not yield rank 4; the code produces 6. -/
theorem c9_counterexample :
    get_permutation_index [true, false, true, true] 3 2 ≠ 4 := by decide

/-- C9 (amended): encoding `[1,0,1,1]` with declared composition
`ones = 3, zeros = 2` yields rank 6 — the rank of its forced completion
`[1,0,1,1,0]`. -/
theorem c9_amended :
    get_permutation_index [true, false, true, true] 3 2 = 6 := by decide

end PermutationCompression
